import Mathlib

/-!
Verification development for the metrics registry of openair-cn
(src/common/service303/MetricsRegistry.h) and the vendored aligned
allocation routine
(src/SRC/UTILS/LFDS/liblfds6.1.1/liblfds611/src/lfds611_liblfds/lfds611_liblfds_aligned_malloc.c).

Modelling conventions for MetricsRegistry.h:

* A C++ std::map<std::string, std::string> is represented as a list of
  pairs strictly sorted by key; std::map::insert (which keeps the
  existing entry when the key is already present) is the function
  insSorted below, and a map built by a caller from a sequence of
  insertions is mapOfList.
* The two std::unordered_map caches (families_, metrics_) are keyed in
  the source by std::hash<std::string> of a key string.  std::hash is a
  function, so equal strings always yield equal hashes; we model the
  hash as an injective keying and use the hashed string itself as the
  cache key (association lists with lookup alookup).  The combined
  string built by hash_name_and_labels before hashing is modelled
  exactly (std::accumulate concatenation).
* Family and metric instances live on the C++ heap; we model object
  identity by allocating a fresh numeric id per construction (nextId),
  and record the backend side effects (Family registration by the
  factory, Family::Add) in an event trace.
* MetricName_Parse / MetricLabelName_Parse come from the generated
  protobuf headers (protos/metricsd.pb.h), which are not part of the
  sources; they are modelled from the spec as abstract resolvers, see
  ParseEnv.
-/

set_option maxHeartbeats 1000000
set_option linter.unusedVariables false
set_option linter.unnecessarySimpa false

namespace Service303

/-- Lookup in an association list keyed by strings: models
std::map::find / std::unordered_map::find on our list representation. -/
def alookup {β : Type} (c : String) : List (String × β) → Option β
  | [] => none
  | (k, v) :: m => if k = c then some v else alookup c m

/-- Ordered insert that keeps the existing entry when the key is already
present: this is exactly std::map::insert on the sorted-list
representation of std::map. -/
def insSorted {β : Type} (k : String) (v : β) : List (String × β) → List (String × β)
  | [] => [(k, v)]
  | (k1, v1) :: m =>
    if k < k1 then (k, v) :: (k1, v1) :: m
    else if k = k1 then (k1, v1) :: m
    else (k1, v1) :: insSorted k v m

/-- The std::map a caller obtains by inserting the given key/value pairs
in sequence (first insertion of a key wins, as in std::map::insert). -/
def mapOfList {β : Type} (l : List (String × β)) : List (String × β) :=
  l.foldl (fun acc p => insSorted p.1 p.2 acc) []

/-- Keys of a map / association list. -/
def keysOf {β : Type} (m : List (String × β)) : List String := m.map Prod.fst

/-- Strict key-sortedness: the representation invariant of std::map. -/
def SortedKeys {β : Type} (m : List (String × β)) : Prop :=
  List.Pairwise (fun p q : String × β => p.1 < q.1) m

instance {β : Type} (m : List (String × β)) : Decidable (SortedKeys m) := by
  unfold SortedKeys; infer_instance

/-- Modelled from the spec: the protobuf-generated enum resolvers
MetricName_Parse and MetricLabelName_Parse (protos/metricsd.pb.h and
protos/metrics.pb.h are not among the sources).  Given a raw string
each attempts to parse it as a recognized enumerated constant: on
success it yields the constant's numeric value (whose canonical textual
form is std::to_string of that value), on failure it signals "not
recognized" and the raw string is used unchanged. -/
structure ParseEnv where
  parseMetricName : String → Option Nat
  parseMetricLabelName : String → Option Nat

/-- The normalized name registered with the backend:
MetricName_Parse(name, &v) ? std::to_string(v) : name. -/
def protoNameOf (env : ParseEnv) (name : String) : String :=
  match env.parseMetricName name with
  | some v => toString v
  | none => name

/-- Normalization of one label name inside parse_labels:
MetricLabelName_Parse(first, &e) ? std::to_string(e) : first. -/
def normLabel (pl : String → Option Nat) (k : String) : String :=
  match pl k with
  | some v => toString v
  | none => k

/-- MetricsRegistry::parse_labels: iterate over the (key-sorted) label
map and insert (normalized name, unchanged value) into a fresh std::map
with std::map::insert, which keeps the first entry on a key collision. -/
def parse_labels (pl : String → Option Nat) (labels : List (String × String)) :
    List (String × String) :=
  labels.foldl (fun acc p => insSorted (normLabel pl p.1) p.2 acc) []

/-- MetricsRegistry::hash_name_and_labels: std::accumulate concatenating
name, then each label key and value in map (ascending key) order.  The
source then applies std::hash to this combined string; per the modelling
convention the combined string itself is the cache key. -/
def hash_name_and_labels (name : String) (labels : List (String × String)) : String :=
  labels.foldl (fun acc p => acc ++ p.1 ++ p.2) name

/-- Observable side effects on the backend: Family registration by the
factory (factory_().Name(protoName).Register(*registry_)) and
Family::Add(convertedLabels, args...). -/
inductive Event (α : Type) where
  | register (protoName : String) (familyId : Nat)
  | add (familyId : Nat) (labels : List (String × String)) (args : α) (metricId : Nat)
  deriving DecidableEq, Repr

/-- The registry state: the two caches (families_, metrics_), the trace
of backend side effects, and the id supply standing in for heap
allocation. α is the type of the forwarded construction arguments. -/
structure RegState (α : Type) where
  families_ : List (String × Nat)
  metrics_ : List (String × Nat)
  events : List (Event α)
  nextId : Nat
  deriving DecidableEq, Repr

/-- A freshly constructed MetricsRegistry: both caches empty. -/
def emptyReg (α : Type) : RegState α := ⟨[], [], [], 0⟩

/-- Family-resolution half of MetricsRegistry::Get (source lines 83-99):
look the raw name up in families_; on a miss, normalize the name,
register a new Family with the backend and cache it under the raw-name
key. -/
def getFamily {α : Type} (env : ParseEnv) (st : RegState α) (name : String) :
    Nat × RegState α :=
  match alookup name st.families_ with
  | some f => (f, st)
  | none =>
    let f := st.nextId
    (f, { st with
          families_ := (name, f) :: st.families_
          events := st.events ++ [Event.register (protoNameOf env name) f]
          nextId := st.nextId + 1 })

/-- MetricsRegistry::Get (source lines 77-114): family resolution on the
raw name, then instance resolution on hash_name_and_labels(name, labels);
on an instance miss, parse_labels converts the label names and
family->Add(converted_labels, args...) constructs the instance, which is
cached.  Returns the instance (id) and the updated registry state. -/
def Get {α : Type} (env : ParseEnv) (st : RegState α) (name : String)
    (labels : List (String × String)) (args : α) : Nat × RegState α :=
  let fr := getFamily env st name
  let mh := hash_name_and_labels name labels
  match alookup mh fr.2.metrics_ with
  | some m => (m, fr.2)
  | none =>
    let converted := parse_labels env.parseMetricLabelName labels
    let m := fr.2.nextId
    (m, { fr.2 with
          metrics_ := (mh, m) :: fr.2.metrics_
          events := fr.2.events ++ [Event.add fr.1 converted args m]
          nextId := fr.2.nextId + 1 })

/-- MetricsRegistry::SizeFamilies. -/
def SizeFamilies {α : Type} (st : RegState α) : Nat := st.families_.length

/-- MetricsRegistry::SizeMetrics. -/
def SizeMetrics {α : Type} (st : RegState α) : Nat := st.metrics_.length

/-- The names registered with the backend registry so far, in order. -/
def registeredNames {α : Type} (evs : List (Event α)) : List String :=
  evs.filterMap (fun e =>
    match e with
    | Event.register n _ => some n
    | Event.add _ _ _ _ => none)

/-- A parse environment recognizing nothing (both resolvers fail on
every string). -/
def envNone : ParseEnv := ⟨fun _ => none, fun _ => none⟩

end Service303

namespace Service303

/-! Basic lemmas about the map representation. -/

theorem alookup_eq_none {β : Type} (c : String) (m : List (String × β)) :
    alookup c m = none ↔ c ∉ keysOf m := by
  induction m with
  | nil => simp [alookup, keysOf]
  | cons p m ih =>
    obtain ⟨k, v⟩ := p
    by_cases hk : k = c
    · subst hk
      simp [alookup, keysOf]
    · have hck : ¬ c = k := fun h => hk h.symm
      simp only [alookup, keysOf, List.map_cons, List.mem_cons] at ih ⊢
      simp [hk, hck, ih]

theorem alookup_mem {β : Type} {c : String} {m : List (String × β)} {v : β}
    (h : alookup c m = some v) : (c, v) ∈ m := by
  induction m with
  | nil => simp [alookup] at h
  | cons p m ih =>
    obtain ⟨k, w⟩ := p
    by_cases hk : k = c
    · subst hk
      simp [alookup] at h
      subst h
      exact List.mem_cons_self _ _
    · simp [alookup, hk] at h
      exact List.mem_cons_of_mem _ (ih h)

theorem mem_insSorted {β : Type} {q : String × β} {k : String} {v : β}
    {m : List (String × β)} (h : q ∈ insSorted k v m) : q ∈ m ∨ q = (k, v) := by
  induction m with
  | nil =>
    simp [insSorted] at h
    simp [h]
  | cons p m ih =>
    obtain ⟨k1, v1⟩ := p
    by_cases h1 : k < k1
    · simp only [insSorted, if_pos h1, List.mem_cons] at h
      rcases h with h | h | h
      · right; simp [h]
      · left; simp [h]
      · left; exact List.mem_cons_of_mem _ h
    · by_cases h2 : k = k1
      · simp only [insSorted, if_neg h1, if_pos h2, List.mem_cons] at h
        rcases h with h | h
        · left; simp [h]
        · left; exact List.mem_cons_of_mem _ h
      · simp only [insSorted, if_neg h1, if_neg h2, List.mem_cons] at h
        rcases h with h | h
        · left; simp [h]
        · rcases ih h with h | h
          · left; exact List.mem_cons_of_mem _ h
          · right; exact h

theorem insSorted_perm {β : Type} {k : String} (v : β) {m : List (String × β)}
    (h : k ∉ keysOf m) : List.Perm (insSorted k v m) ((k, v) :: m) := by
  induction m with
  | nil => simp [insSorted]
  | cons p m ih =>
    obtain ⟨k1, v1⟩ := p
    simp only [keysOf, List.map_cons, List.mem_cons] at h
    push_neg at h
    obtain ⟨h2, h3⟩ := h
    by_cases h1 : k < k1
    · simp [insSorted, h1]
    · simp only [insSorted, if_neg h1, if_neg h2]
      refine List.Perm.trans (List.Perm.cons _ (ih ?_)) (List.Perm.swap _ _ _)
      simpa [keysOf] using h3

theorem self_mem_keysOf_insSorted {β : Type} (k : String) (v : β)
    (m : List (String × β)) : k ∈ keysOf (insSorted k v m) := by
  induction m with
  | nil => simp [insSorted, keysOf]
  | cons p m ih =>
    obtain ⟨k1, v1⟩ := p
    by_cases h1 : k < k1
    · simp [insSorted, h1, keysOf]
    · by_cases h2 : k = k1
      · simp [insSorted, h1, h2, keysOf]
      · simp only [insSorted, if_neg h1, if_neg h2, keysOf, List.map_cons, List.mem_cons]
        right
        simpa [keysOf] using ih

theorem mem_insSorted_of_mem {β : Type} {q : String × β} (k : String) (v : β)
    {m : List (String × β)} (h : q ∈ m) : q ∈ insSorted k v m := by
  induction m with
  | nil => simp at h
  | cons p m ih =>
    obtain ⟨k1, v1⟩ := p
    by_cases h1 : k < k1
    · simp only [insSorted, if_pos h1, List.mem_cons]
      simp at h
      tauto
    · by_cases h2 : k = k1
      · simpa only [insSorted, if_neg h1, if_pos h2] using h
      · simp only [insSorted, if_neg h1, if_neg h2, List.mem_cons]
        rcases List.mem_cons.mp h with h | h
        · left; exact h
        · right; exact ih h

theorem keysOf_insSorted {β : Type} (c k : String) (v : β) (m : List (String × β)) :
    c ∈ keysOf (insSorted k v m) ↔ c = k ∨ c ∈ keysOf m := by
  constructor
  · intro h
    simp only [keysOf, List.mem_map] at h
    obtain ⟨q, hq, rfl⟩ := h
    rcases mem_insSorted hq with h | h
    · right
      simp only [keysOf, List.mem_map]
      exact ⟨q, h, rfl⟩
    · left
      rw [h]
  · intro h
    rcases h with rfl | h
    · exact self_mem_keysOf_insSorted _ _ _
    · simp only [keysOf, List.mem_map] at h ⊢
      obtain ⟨q, hq, rfl⟩ := h
      exact ⟨q, mem_insSorted_of_mem k v hq, rfl⟩

theorem sortedKeys_cons {β : Type} {p : String × β} {m : List (String × β)} :
    SortedKeys (p :: m) ↔ (∀ q ∈ m, p.1 < q.1) ∧ SortedKeys m :=
  List.pairwise_cons

theorem sortedKeys_insSorted {β : Type} (k : String) (v : β) {m : List (String × β)}
    (h : SortedKeys m) : SortedKeys (insSorted k v m) := by
  induction m with
  | nil =>
    simp only [insSorted]
    exact List.pairwise_cons.mpr ⟨by simp, List.Pairwise.nil⟩
  | cons p m ih =>
    obtain ⟨k1, v1⟩ := p
    obtain ⟨hall, hm⟩ := sortedKeys_cons.mp h
    by_cases h1 : k < k1
    · simp only [insSorted, if_pos h1]
      refine sortedKeys_cons.mpr ⟨?_, h⟩
      intro q hq
      rcases List.mem_cons.mp hq with rfl | hq
      · exact h1
      · exact lt_trans h1 (hall q hq)
    · by_cases h2 : k = k1
      · simpa only [insSorted, if_neg h1, if_pos h2] using h
      · have h3 : k1 < k := by
          rcases lt_trichotomy k k1 with hlt | heq | hgt
          · exact absurd hlt h1
          · exact absurd heq h2
          · exact hgt
        simp only [insSorted, if_neg h1, if_neg h2]
        refine sortedKeys_cons.mpr ⟨?_, ih hm⟩
        intro q hq
        rcases mem_insSorted hq with hq | rfl
        · exact hall q hq
        · exact h3

theorem alookup_insSorted_found {β : Type} {c : String} {m : List (String × β)}
    {w : β} (hm : SortedKeys m) (k : String) (v : β) (h : alookup c m = some w) :
    alookup c (insSorted k v m) = some w := by
  induction m with
  | nil => simp [alookup] at h
  | cons p m ih =>
    obtain ⟨k1, v1⟩ := p
    obtain ⟨hall, hm1⟩ := sortedKeys_cons.mp hm
    by_cases hk1 : k1 = c
    · by_cases h1 : k < k1
      · have hkc : ¬ k = c := by
          intro hkc
          have hkk : k = k1 := hkc.trans hk1.symm
          exact absurd (hkk ▸ h1) (lt_irrefl _)
        simp only [insSorted, if_pos h1, alookup, if_neg hkc]
        exact h
      · by_cases h2 : k = k1
        · simpa only [insSorted, if_neg h1, if_pos h2] using h
        · simp only [alookup, if_pos hk1] at h
          simp only [insSorted, if_neg h1, if_neg h2, alookup, if_pos hk1]
          exact h
    · simp only [alookup, if_neg hk1] at h
      have hk1c : k1 < c := by
        obtain ⟨q, hq, hqc⟩ : ∃ q ∈ m, q.1 = c := ⟨(c, w), alookup_mem h, rfl⟩
        exact hqc ▸ hall q hq
      by_cases h1 : k < k1
      · have hkc : ¬ k = c := by
          intro hkc
          have hkclt : k < c := lt_trans h1 hk1c
          rw [hkc] at hkclt
          exact absurd hkclt (lt_irrefl c)
        simp only [insSorted, if_pos h1, alookup, if_neg hkc, if_neg hk1]
        exact h
      · by_cases h2 : k = k1
        · simp only [insSorted, if_neg h1, if_pos h2, alookup, if_neg hk1]
          exact h
        · simp only [insSorted, if_neg h1, if_neg h2, alookup, if_neg hk1]
          exact ih hm1 h

theorem alookup_insSorted_new {β : Type} {k : String} (v : β)
    {m : List (String × β)} (h : k ∉ keysOf m) :
    alookup k (insSorted k v m) = some v := by
  induction m with
  | nil => simp [insSorted, alookup]
  | cons p m ih =>
    obtain ⟨k1, v1⟩ := p
    simp only [keysOf, List.map_cons, List.mem_cons] at h
    push_neg at h
    obtain ⟨hne, hnm⟩ := h
    by_cases h1 : k < k1
    · simp [insSorted, h1, alookup]
    · have hne1 : ¬ k1 = k := fun hh => hne hh.symm
      simp only [insSorted, if_neg h1, if_neg hne, alookup, if_neg hne1]
      exact ih (by simpa [keysOf] using hnm)

theorem alookup_insSorted_none {β : Type} {c k : String} (v : β)
    {m : List (String × β)} (hck : ¬ c = k) (h : alookup c m = none) :
    alookup c (insSorted k v m) = none := by
  rw [alookup_eq_none] at h ⊢
  intro hmem
  rcases (keysOf_insSorted c k v m).mp hmem with h1 | h1
  · exact hck h1
  · exact h h1

/-- Helper generalizing the two insertion folds of the source:
parse_labels inserts under the normalized key, mapOfList under the raw
key; kf is the key transformation. -/
def foldIns {β : Type} (kf : String → String) (acc l : List (String × β)) :
    List (String × β) :=
  l.foldl (fun a p => insSorted (kf p.1) p.2 a) acc

theorem mapOfList_eq_foldIns {β : Type} (l : List (String × β)) :
    mapOfList l = foldIns id [] l := rfl

theorem parse_labels_eq_foldIns (pl : String → Option Nat)
    (l : List (String × String)) :
    parse_labels pl l = foldIns (normLabel pl) [] l := rfl

theorem sortedKeys_foldIns {β : Type} (kf : String → String) :
    ∀ (l acc : List (String × β)), SortedKeys acc → SortedKeys (foldIns kf acc l)
  | [], acc, hacc => hacc
  | p :: l, acc, hacc =>
    sortedKeys_foldIns kf l (insSorted (kf p.1) p.2 acc)
      (sortedKeys_insSorted _ _ hacc)

theorem alookup_foldIns_found {β : Type} (kf : String → String) {c : String} {w : β} :
    ∀ (l acc : List (String × β)), SortedKeys acc → alookup c acc = some w →
      alookup c (foldIns kf acc l) = some w := by
  intro l
  induction l with
  | nil => intro acc _ h; exact h
  | cons p l ih =>
    intro acc hacc h
    simp only [foldIns, List.foldl_cons]
    exact ih (insSorted (kf p.1) p.2 acc) (sortedKeys_insSorted _ _ hacc)
      (alookup_insSorted_found hacc _ _ h)

theorem alookup_foldIns_none {β : Type} (kf : String → String) {c : String} :
    ∀ (l acc : List (String × β)), SortedKeys acc → alookup c acc = none →
      alookup c (foldIns kf acc l) =
        Option.map Prod.snd (List.find? (fun p => kf p.1 == c) l) := by
  intro l
  induction l with
  | nil =>
    intro acc _ h
    simpa [foldIns] using h
  | cons p l ih =>
    intro acc hacc h
    simp only [foldIns, List.foldl_cons]
    by_cases hc : kf p.1 = c
    · subst hc
      have hnew : alookup (kf p.1) (insSorted (kf p.1) p.2 acc) = some p.2 :=
        alookup_insSorted_new _ ((alookup_eq_none _ _).mp h)
      have := alookup_foldIns_found kf l (insSorted (kf p.1) p.2 acc)
        (sortedKeys_insSorted _ _ hacc) hnew
      simp only [foldIns] at this
      rw [this]
      simp [List.find?_cons]
    · have hck : ¬ c = kf p.1 := fun hh => hc hh.symm
      have hnone : alookup c (insSorted (kf p.1) p.2 acc) = none :=
        alookup_insSorted_none _ hck h
      have hrec := ih (insSorted (kf p.1) p.2 acc) (sortedKeys_insSorted _ _ hacc) hnone
      simp only [foldIns] at hrec
      rw [hrec]
      have hbeq : (kf p.1 == c) = false := by
        simp [hc]
      simp [List.find?_cons, hbeq]

theorem mem_keys_foldIns {β : Type} (kf : String → String) (c : String) :
    ∀ (l acc : List (String × β)),
      (c ∈ keysOf (foldIns kf acc l) ↔ c ∈ keysOf acc ∨ ∃ p ∈ l, kf p.1 = c) := by
  intro l
  induction l with
  | nil =>
    intro acc
    simp [foldIns]
  | cons p l ih =>
    intro acc
    simp only [foldIns, List.foldl_cons]
    have := ih (insSorted (kf p.1) p.2 acc)
    simp only [foldIns] at this
    rw [this, keysOf_insSorted]
    constructor
    · intro h
      rcases h with (h | h) | ⟨q, hq, hqc⟩
      · right; exact ⟨p, List.mem_cons_self _ _, h.symm⟩
      · left; exact h
      · right; exact ⟨q, List.mem_cons_of_mem _ hq, hqc⟩
    · intro h
      rcases h with h | ⟨q, hq, hqc⟩
      · left; right; exact h
      · rcases List.mem_cons.mp hq with rfl | hq
        · left; left; exact hqc.symm
        · right; exact ⟨q, hq, hqc⟩

theorem mem_foldIns {β : Type} (kf : String → String) {q : String × β} :
    ∀ (l acc : List (String × β)), q ∈ foldIns kf acc l →
      q ∈ acc ∨ ∃ p ∈ l, q = (kf p.1, p.2) := by
  intro l
  induction l with
  | nil =>
    intro acc h
    left; exact h
  | cons p l ih =>
    intro acc h
    simp only [foldIns, List.foldl_cons] at h
    rcases ih (insSorted (kf p.1) p.2 acc) h with h1 | ⟨r, hr, hrq⟩
    · rcases mem_insSorted h1 with h2 | h2
      · left; exact h2
      · right; exact ⟨p, List.mem_cons_self _ _, h2⟩
    · right; exact ⟨r, List.mem_cons_of_mem _ hr, hrq⟩

theorem sortedKeys_mapOfList {β : Type} (l : List (String × β)) :
    SortedKeys (mapOfList l) := by
  rw [mapOfList_eq_foldIns]
  exact sortedKeys_foldIns id l [] List.Pairwise.nil

theorem sortedKeys_parse_labels (pl : String → Option Nat)
    (l : List (String × String)) : SortedKeys (parse_labels pl l) := by
  rw [parse_labels_eq_foldIns]
  exact sortedKeys_foldIns (normLabel pl) l [] List.Pairwise.nil

theorem foldIns_id_perm {β : Type} :
    ∀ (l acc : List (String × β)), (keysOf acc ++ keysOf l).Nodup →
      List.Perm (foldIns id acc l) (acc ++ l) := by
  intro l
  induction l with
  | nil =>
    intro acc _
    simp [foldIns]
  | cons p l ih =>
    intro acc h
    have hdisj : (keysOf acc).Disjoint (keysOf (p :: l)) :=
      (List.nodup_append.mp h).2.2
    have hp1 : p.1 ∉ keysOf acc := by
      intro hmem
      exact hdisj hmem (by simp [keysOf])
    have hins : List.Perm (insSorted p.1 p.2 acc) (p :: acc) := insSorted_perm p.2 hp1
    have hkeys : List.Perm (keysOf (insSorted p.1 p.2 acc)) (p.1 :: keysOf acc) := by
      simpa [keysOf] using hins.map Prod.fst
    have hnodup : (keysOf (insSorted p.1 p.2 acc) ++ keysOf l).Nodup := by
      have hperm1 : List.Perm (keysOf acc ++ keysOf (p :: l))
          (p.1 :: (keysOf acc ++ keysOf l)) := by
        simpa [keysOf] using
          (List.perm_middle :
            List.Perm (keysOf acc ++ p.1 :: keysOf l) (p.1 :: (keysOf acc ++ keysOf l)))
      have h1 : (p.1 :: (keysOf acc ++ keysOf l)).Nodup := hperm1.nodup h
      have hperm2 : List.Perm (keysOf (insSorted p.1 p.2 acc) ++ keysOf l)
          (p.1 :: (keysOf acc ++ keysOf l)) := by
        have := hkeys.append_right (keysOf l)
        simpa using this
      exact hperm2.symm.nodup h1
    have hrec := ih (insSorted p.1 p.2 acc) hnodup
    have hstep : List.Perm (foldIns id acc (p :: l))
        (insSorted p.1 p.2 acc ++ l) := by
      simpa [foldIns] using hrec
    refine hstep.trans ?_
    refine (hins.append_right l).trans ?_
    exact List.perm_middle.symm

theorem mapOfList_perm {β : Type} {l : List (String × β)}
    (h : (l.map Prod.fst).Nodup) : List.Perm (mapOfList l) l := by
  rw [mapOfList_eq_foldIns]
  have := foldIns_id_perm l [] (by simpa [keysOf] using h)
  simpa using this

theorem eq_of_perm_of_sortedKeys {β : Type} {m1 m2 : List (String × β)}
    (hp : List.Perm m1 m2) (h1 : SortedKeys m1) (h2 : SortedKeys m2) : m1 = m2 := by
  haveI : IsAntisymm (String × β) (fun p q => p.1 < q.1) :=
    ⟨fun a b hab hba => absurd hab (lt_asymm hba)⟩
  exact List.eq_of_perm_of_sorted hp h1 h2

theorem mapOfList_eq_of_perm {β : Type} {l1 l2 : List (String × β)}
    (hp : List.Perm l1 l2) (h1 : (l1.map Prod.fst).Nodup) :
    mapOfList l1 = mapOfList l2 := by
  have h2 : (l2.map Prod.fst).Nodup := (hp.map Prod.fst).nodup h1
  exact eq_of_perm_of_sortedKeys
    ((mapOfList_perm h1).trans (hp.trans (mapOfList_perm h2).symm))
    (sortedKeys_mapOfList l1) (sortedKeys_mapOfList l2)

/-! Lemmas about the get-or-create protocol. -/

theorem getFamily_families_alookup {α : Type} (env : ParseEnv) (st : RegState α)
    (name : String) :
    alookup name (getFamily env st name).2.families_ = some (getFamily env st name).1 := by
  unfold getFamily
  cases h : alookup name st.families_ <;> simp [h, alookup]

theorem getFamily_metrics {α : Type} (env : ParseEnv) (st : RegState α)
    (name : String) : (getFamily env st name).2.metrics_ = st.metrics_ := by
  unfold getFamily
  cases h : alookup name st.families_ <;> simp [h]

theorem get_metrics_alookup {α : Type} (env : ParseEnv) (st : RegState α)
    (name : String) (labels : List (String × String)) (args : α) :
    alookup (hash_name_and_labels name labels) (Get env st name labels args).2.metrics_
      = some (Get env st name labels args).1 := by
  unfold Get
  cases h : alookup (hash_name_and_labels name labels) (getFamily env st name).2.metrics_ <;>
    simp [h, alookup]

theorem get_families {α : Type} (env : ParseEnv) (st : RegState α) (name : String)
    (labels : List (String × String)) (args : α) :
    (Get env st name labels args).2.families_ = (getFamily env st name).2.families_ := by
  unfold Get
  cases h : alookup (hash_name_and_labels name labels) (getFamily env st name).2.metrics_ <;>
    simp [h]

theorem get_hit {α : Type} (env : ParseEnv) (st : RegState α) (name : String)
    (labels : List (String × String)) (args : α) {f m : Nat}
    (hf : alookup name st.families_ = some f)
    (hm : alookup (hash_name_and_labels name labels) st.metrics_ = some m) :
    Get env st name labels args = (m, st) := by
  unfold Get getFamily
  simp [hf, hm]

/-- Claim C1: repeated calls to Get with an equal name and a set-equal
label mapping (any label insertion order, any construction arguments on
the second call) return the identical metric instance, and the second
call leaves the whole registry state — both caches and the backend
side-effect trace — unchanged, so the backend construction side effect
happens exactly once per distinct (name, labels) pair and construction
arguments are ignored on a cache hit. -/
theorem get_repeated_same_instance {α : Type} (env : ParseEnv) (st : RegState α)
    (name : String) (l1 l2 : List (String × String)) (args1 args2 : α)
    (hperm : List.Perm l1 l2) (hnd : (l1.map Prod.fst).Nodup) :
    (Get env (Get env st name (mapOfList l1) args1).2 name (mapOfList l2) args2).1
      = (Get env st name (mapOfList l1) args1).1
    ∧ (Get env (Get env st name (mapOfList l1) args1).2 name (mapOfList l2) args2).2
      = (Get env st name (mapOfList l1) args1).2 := by
  have hmaps : mapOfList l2 = mapOfList l1 := (mapOfList_eq_of_perm hperm hnd).symm
  rw [hmaps]
  obtain ⟨f, hf⟩ : ∃ f,
      alookup name (Get env st name (mapOfList l1) args1).2.families_ = some f := by
    rw [get_families]
    exact ⟨_, getFamily_families_alookup env st name⟩
  have hkey := get_hit env (Get env st name (mapOfList l1) args1).2 name
    (mapOfList l1) args2 hf (get_metrics_alookup env st name (mapOfList l1) args1)
  rw [hkey]
  exact ⟨rfl, rfl⟩

/-- Witness for C1 at concrete inputs: two label lists that differ only
in insertion order, different construction arguments on the second call. -/
theorem get_repeated_same_instance_witness :
    List.Perm [("a", "1"), ("b", "2")] [("b", "2"), ("a", "1")]
    ∧ ([("a", "1"), ("b", "2")].map Prod.fst).Nodup
    ∧ ((Get envNone (Get envNone (emptyReg Nat) "n"
          (mapOfList [("a", "1"), ("b", "2")]) 0).2 "n"
          (mapOfList [("b", "2"), ("a", "1")]) 7).1
        = (Get envNone (emptyReg Nat) "n" (mapOfList [("a", "1"), ("b", "2")]) 0).1
      ∧ (Get envNone (Get envNone (emptyReg Nat) "n"
          (mapOfList [("a", "1"), ("b", "2")]) 0).2 "n"
          (mapOfList [("b", "2"), ("a", "1")]) 7).2
        = (Get envNone (emptyReg Nat) "n" (mapOfList [("a", "1"), ("b", "2")]) 0).2) :=
  ⟨by decide, by decide,
   get_repeated_same_instance envNone (emptyReg Nat) "n"
     [("a", "1"), ("b", "2")] [("b", "2"), ("a", "1")] 0 7 (by decide) (by decide)⟩

/-- Counterexample to claim C2: the two singleton label mappings
{"a" ↦ "bc"} and {"ab" ↦ "c"} are distinct as sets, yet under the name
"n" both produce the identity string "nabc" in hash_name_and_labels, so
the second Get call returns the instance cached by the first. -/
theorem get_distinct_labels_counterexample :
    mapOfList [("a", "bc")] ≠ mapOfList [("ab", "c")]
    ∧ (Get envNone (Get envNone (emptyReg Nat) "n" (mapOfList [("a", "bc")]) 0).2
        "n" (mapOfList [("ab", "c")]) 0).1
      = (Get envNone (emptyReg Nat) "n" (mapOfList [("a", "bc")]) 0).1 :=
  ⟨by decide, by decide⟩

/-- Invariant of the instance cache: every cached instance id was
allocated below the id supply, and distinct cache keys hold distinct
instances (each Family::Add returned a fresh object). -/
def IdsWF {α : Type} (st : RegState α) : Prop :=
  (∀ p ∈ st.metrics_, p.2 < st.nextId) ∧
  (∀ p ∈ st.metrics_, ∀ q ∈ st.metrics_, p.2 = q.2 → p.1 = q.1)

instance {α : Type} (st : RegState α) : Decidable (IdsWF st) := by
  unfold IdsWF; infer_instance

theorem getFamily_nextId_ge {α : Type} (env : ParseEnv) (st : RegState α)
    (name : String) : st.nextId ≤ (getFamily env st name).2.nextId := by
  unfold getFamily
  cases h : alookup name st.families_ <;> simp [h]

theorem idsWF_get {α : Type} (env : ParseEnv) (st : RegState α) (name : String)
    (labels : List (String × String)) (args : α) (hwf : IdsWF st) :
    IdsWF (Get env st name labels args).2 := by
  have hmet : (getFamily env st name).2.metrics_ = st.metrics_ :=
    getFamily_metrics env st name
  have hnid : st.nextId ≤ (getFamily env st name).2.nextId :=
    getFamily_nextId_ge env st name
  have hwf1 : IdsWF (getFamily env st name).2 := by
    refine ⟨?_, ?_⟩
    · intro p hp
      rw [hmet] at hp
      exact lt_of_lt_of_le (hwf.1 p hp) hnid
    · intro p hp q hq
      rw [hmet] at hp hq
      exact hwf.2 p hp q hq
  unfold Get
  cases hm : alookup (hash_name_and_labels name labels)
      (getFamily env st name).2.metrics_ with
  | some m => simpa [hm] using hwf1
  | none =>
    simp only [hm]
    refine ⟨?_, ?_⟩
    · intro p hp
      rcases List.mem_cons.mp hp with rfl | hp
      · simp
      · exact Nat.lt_succ_of_lt (hwf1.1 p hp)
    · intro p hp q hq hpq
      rcases List.mem_cons.mp hp with rfl | hp <;>
        rcases List.mem_cons.mp hq with rfl | hq
      · rfl
      · exact absurd (hpq ▸ hwf1.1 q hq) (lt_irrefl _)
      · exact absurd (hpq ▸ hwf1.1 p hp) (lt_irrefl _)
      · exact hwf1.2 p hp q hq hpq

/-- Amended claim C2: two Get calls with the same name and distinct
label mappings return distinct metric instances provided the identity
strings built by hash_name_and_labels differ (which the concatenation
collision in the counterexample shows is strictly weaker than
set-distinctness of the mappings), starting from any registry state
whose instance cache is well-formed. -/
theorem get_distinct_instances_of_key_ne {α : Type} (env : ParseEnv)
    (st : RegState α) (name : String) (l1 l2 : List (String × String))
    (args1 args2 : α) (hwf : IdsWF st)
    (hne : hash_name_and_labels name (mapOfList l1)
         ≠ hash_name_and_labels name (mapOfList l2)) :
    (Get env (Get env st name (mapOfList l1) args1).2 name (mapOfList l2) args2).1
      ≠ (Get env st name (mapOfList l1) args1).1 := by
  have h1 := get_metrics_alookup env st name (mapOfList l1) args1
  have hwf1 : IdsWF (Get env st name (mapOfList l1) args1).2 :=
    idsWF_get env st name (mapOfList l1) args1 hwf
  set st1 := (Get env st name (mapOfList l1) args1).2 with hst1
  set m1 := (Get env st name (mapOfList l1) args1).1 with hm1
  have hmet2 : (getFamily env st1 name).2.metrics_ = st1.metrics_ :=
    getFamily_metrics env st1 name
  unfold Get
  cases hm : alookup (hash_name_and_labels name (mapOfList l2))
      (getFamily env st1 name).2.metrics_ with
  | some m2 =>
    simp only [hm]
    intro hEq
    rw [hmet2] at hm
    have hkeys := hwf1.2 _ (alookup_mem hm) _ (alookup_mem h1) hEq
    exact hne hkeys.symm
  | none =>
    simp only [hm]
    have hlt : m1 < st1.nextId := hwf1.1 _ (alookup_mem h1)
    have hle : st1.nextId ≤ (getFamily env st1 name).2.nextId :=
      getFamily_nextId_ge env st1 name
    intro hEq
    omega

/-- Witness for the amended C2 at concrete inputs: same name, two label
mappings with different identity strings, from the empty registry. -/
theorem get_distinct_instances_of_key_ne_witness :
    IdsWF (emptyReg Nat)
    ∧ hash_name_and_labels "n" (mapOfList [("a", "1")])
        ≠ hash_name_and_labels "n" (mapOfList [("a", "2")])
    ∧ (Get envNone (Get envNone (emptyReg Nat) "n" (mapOfList [("a", "1")]) 0).2
        "n" (mapOfList [("a", "2")]) 0).1
      ≠ (Get envNone (emptyReg Nat) "n" (mapOfList [("a", "1")]) 0).1 :=
  ⟨by decide, by decide,
   get_distinct_instances_of_key_ne envNone (emptyReg Nat) "n"
     [("a", "1")] [("a", "2")] 0 0 (by decide) (by decide)⟩

/-! Lemmas about the backend registration trace. -/

theorem registeredNames_append {α : Type} (e1 e2 : List (Event α)) :
    registeredNames (e1 ++ e2) = registeredNames e1 ++ registeredNames e2 := by
  simp [registeredNames, List.filterMap_append]

theorem registeredNames_get {α : Type} (env : ParseEnv) (st : RegState α)
    (name : String) (labels : List (String × String)) (args : α) :
    registeredNames (Get env st name labels args).2.events
      = registeredNames (getFamily env st name).2.events := by
  unfold Get
  cases hm : alookup (hash_name_and_labels name labels)
      (getFamily env st name).2.metrics_ with
  | some m => simp [hm]
  | none => simp [hm, registeredNames_append, registeredNames]

theorem registeredNames_getFamily_miss {α : Type} (env : ParseEnv) (st : RegState α)
    (name : String) (h : alookup name st.families_ = none) :
    registeredNames (getFamily env st name).2.events
      = registeredNames st.events ++ [protoNameOf env name] := by
  unfold getFamily
  simp [h, registeredNames_append, registeredNames]

theorem get_families_miss {α : Type} (env : ParseEnv) (st : RegState α)
    (name : String) (labels : List (String × String)) (args : α)
    (h : alookup name st.families_ = none) :
    (Get env st name labels args).2.families_ = (name, st.nextId) :: st.families_ := by
  rw [get_families]
  unfold getFamily
  simp [h]

/-- Claim C3: two distinct raw name strings that both parse to the same
enumerated MetricName constant create two separate entries in the family
cache (a miss each time, since the cache is keyed on the raw name) and
register the same normalized (numeric-string) name with the backend
registry twice. -/
theorem get_same_enum_two_families {α : Type} (env : ParseEnv) (st : RegState α)
    (n1 n2 : String) (v : Nat) (labels : List (String × String)) (args1 args2 : α)
    (h1 : env.parseMetricName n1 = some v) (h2 : env.parseMetricName n2 = some v)
    (hne : n1 ≠ n2)
    (ha1 : alookup n1 st.families_ = none) (ha2 : alookup n2 st.families_ = none) :
    SizeFamilies (Get env (Get env st n1 labels args1).2 n2 labels args2).2
      = SizeFamilies st + 2
    ∧ registeredNames (Get env (Get env st n1 labels args1).2 n2 labels args2).2.events
      = registeredNames st.events ++ [toString v, toString v] := by
  have hf1 := get_families_miss env st n1 labels args1 ha1
  set st1 := (Get env st n1 labels args1).2 with hst1
  have ha2' : alookup n2 st1.families_ = none := by
    rw [hf1]
    have : ¬ n1 = n2 := hne
    simp [alookup, this, ha2]
  have hf2 := get_families_miss env st1 n2 labels args2 ha2'
  constructor
  · rw [SizeFamilies, hf2, hf1]
    simp [SizeFamilies]
  · have hrn2 := registeredNames_get env st1 n2 labels args2
    have hrn2f := registeredNames_getFamily_miss env st1 n2 ha2'
    have hrn1 : registeredNames st1.events
        = registeredNames st.events ++ [protoNameOf env n1] := by
      rw [hst1, registeredNames_get env st n1 labels args1,
        registeredNames_getFamily_miss env st n1 ha1]
    have hp1 : protoNameOf env n1 = toString v := by simp [protoNameOf, h1]
    have hp2 : protoNameOf env n2 = toString v := by simp [protoNameOf, h2]
    rw [hrn2, hrn2f, hrn1, hp1, hp2, List.append_assoc]
    rfl

/-- A parse environment in which the two raw metric names "na" and "nb"
both parse to the enumerated constant 5 (protobuf enums admit aliases),
and no label name is recognized. -/
def envAlias : ParseEnv :=
  ⟨fun s => if s = "na" then some 5 else if s = "nb" then some 5 else none,
   fun _ => none⟩

/-- Witness for C3: from the empty registry, Get "na" then Get "nb" under
envAlias leaves two family-cache entries and two backend registrations
of the normalized name "5". -/
theorem get_same_enum_two_families_witness :
    envAlias.parseMetricName "na" = some 5
    ∧ envAlias.parseMetricName "nb" = some 5
    ∧ "na" ≠ "nb"
    ∧ alookup "na" (emptyReg Nat).families_ = none
    ∧ alookup "nb" (emptyReg Nat).families_ = none
    ∧ SizeFamilies (Get envAlias (Get envAlias (emptyReg Nat) "na" [] 0).2 "nb" [] 0).2
        = SizeFamilies (emptyReg Nat) + 2
    ∧ registeredNames
        (Get envAlias (Get envAlias (emptyReg Nat) "na" [] 0).2 "nb" [] 0).2.events
      = registeredNames (emptyReg Nat).events ++ [toString 5, toString 5] := by
  refine ⟨by decide, by decide, by decide, by decide, by decide, ?_, ?_⟩
  · exact (get_same_enum_two_families envAlias (emptyReg Nat) "na" "nb" 5 [] 0 0
      (by decide) (by decide) (by decide) (by decide) (by decide)).1
  · exact (get_same_enum_two_families envAlias (emptyReg Nat) "na" "nb" 5 [] 0 0
      (by decide) (by decide) (by decide) (by decide) (by decide)).2

theorem get_metrics_hit {α : Type} (env : ParseEnv) (st : RegState α)
    (name : String) (labels : List (String × String)) (args : α) {m : Nat}
    (h : alookup (hash_name_and_labels name labels) st.metrics_ = some m) :
    (Get env st name labels args).2.metrics_ = st.metrics_ := by
  unfold Get
  simp only [getFamily_metrics, h]

theorem get_metrics_miss {α : Type} (env : ParseEnv) (st : RegState α)
    (name : String) (labels : List (String × String)) (args : α)
    (h : alookup (hash_name_and_labels name labels) st.metrics_ = none) :
    (Get env st name labels args).2.metrics_
      = (hash_name_and_labels name labels, (getFamily env st name).2.nextId)
          :: st.metrics_ := by
  unfold Get
  simp only [getFamily_metrics, h]

/-- Claim C4: the family-cache lookup key is the raw (pre-normalization)
name alone — the family cache grows on a Get exactly when the raw name
is absent — and the instance-cache lookup key is the raw name
concatenated with each raw label key and value in ascending label-key
order (the map iteration order), so set-equal label mappings produce the
same instance key regardless of the caller's insertion order. -/
theorem get_cache_keying {α : Type} (env : ParseEnv) (st : RegState α)
    (name : String) (l l2 : List (String × String)) (args : α)
    (hnd : (l.map Prod.fst).Nodup) (hperm : List.Perm l l2) :
    List.Sorted (fun a b : String => a < b) ((mapOfList l).map Prod.fst)
    ∧ hash_name_and_labels name (mapOfList l)
        = (mapOfList l).foldl (fun acc p => acc ++ p.1 ++ p.2) name
    ∧ hash_name_and_labels name (mapOfList l2) = hash_name_and_labels name (mapOfList l)
    ∧ ((Get env st name (mapOfList l) args).2.families_.length = st.families_.length
        ↔ (alookup name st.families_).isSome)
    ∧ ((Get env st name (mapOfList l) args).2.metrics_.length = st.metrics_.length
        ↔ (alookup (hash_name_and_labels name (mapOfList l)) st.metrics_).isSome) := by
  refine ⟨?_, rfl, ?_, ?_, ?_⟩
  · exact (List.pairwise_map).mpr (sortedKeys_mapOfList l)
  · rw [mapOfList_eq_of_perm hperm hnd]
  · cases hf : alookup name st.families_ with
    | some f =>
      rw [get_families]
      unfold getFamily
      simp [hf]
    | none =>
      rw [get_families_miss env st name (mapOfList l) args hf]
      simp
  · cases hm : alookup (hash_name_and_labels name (mapOfList l)) st.metrics_ with
    | some m =>
      rw [get_metrics_hit env st name (mapOfList l) args hm]
      simp
    | none =>
      rw [get_metrics_miss env st name (mapOfList l) args hm]
      simp

/-- Witness for C4 at concrete inputs: nodup keys, a permuted second
list, from the empty registry. -/
theorem get_cache_keying_witness :
    ([("b", "2"), ("a", "1")].map Prod.fst).Nodup
    ∧ List.Perm [("b", "2"), ("a", "1")] [("a", "1"), ("b", "2")]
    ∧ (List.Sorted (fun a b : String => a < b)
          ((mapOfList [("b", "2"), ("a", "1")]).map Prod.fst)
      ∧ hash_name_and_labels "n" (mapOfList [("b", "2"), ("a", "1")])
          = (mapOfList [("b", "2"), ("a", "1")]).foldl
              (fun acc p => acc ++ p.1 ++ p.2) "n"
      ∧ hash_name_and_labels "n" (mapOfList [("a", "1"), ("b", "2")])
          = hash_name_and_labels "n" (mapOfList [("b", "2"), ("a", "1")])
      ∧ ((Get envNone (emptyReg Nat) "n" (mapOfList [("b", "2"), ("a", "1")]) 0).2.families_.length
            = (emptyReg Nat).families_.length
          ↔ (alookup "n" (emptyReg Nat).families_).isSome)
      ∧ ((Get envNone (emptyReg Nat) "n" (mapOfList [("b", "2"), ("a", "1")]) 0).2.metrics_.length
            = (emptyReg Nat).metrics_.length
          ↔ (alookup (hash_name_and_labels "n" (mapOfList [("b", "2"), ("a", "1")]))
              (emptyReg Nat).metrics_).isSome)) :=
  ⟨by decide, by decide,
   get_cache_keying envNone (emptyReg Nat) "n" [("b", "2"), ("a", "1")]
     [("a", "1"), ("b", "2")] 0 (by decide) (by decide)⟩

/-- Claim C5: on a first Get for a name (family-cache miss), a name
recognized by the enumerated-constant resolver is registered with the
backend under the constant's canonical numeric-string form, and an
unrecognized name is registered under the raw string unchanged. -/
theorem get_registers_normalized_name {α : Type} (env : ParseEnv) (st : RegState α)
    (name : String) (labels : List (String × String)) (args : α) (v : Nat)
    (h0 : alookup name st.families_ = none) :
    (env.parseMetricName name = some v →
      registeredNames (Get env st name labels args).2.events
        = registeredNames st.events ++ [toString v])
    ∧ (env.parseMetricName name = none →
      registeredNames (Get env st name labels args).2.events
        = registeredNames st.events ++ [name]) := by
  constructor <;> intro h <;>
    rw [registeredNames_get, registeredNames_getFamily_miss env st name h0] <;>
    simp [protoNameOf, h]

/-- Witness for C5: under envAlias the raw name "na" parses to constant
5 and its first Get registers "5", not "na"; under envNone the same raw
name is unrecognized and is registered unchanged. -/
theorem get_registers_normalized_name_witness :
    alookup "na" (emptyReg Nat).families_ = none
    ∧ envAlias.parseMetricName "na" = some 5
    ∧ registeredNames (Get envAlias (emptyReg Nat) "na" [] 0).2.events
        = registeredNames (emptyReg Nat).events ++ [toString 5]
    ∧ envNone.parseMetricName "na" = none
    ∧ registeredNames (Get envNone (emptyReg Nat) "na" [] 0).2.events
        = registeredNames (emptyReg Nat).events ++ ["na"] :=
  ⟨by decide, by decide,
   (get_registers_normalized_name envAlias (emptyReg Nat) "na" [] 0 5 (by decide)).1
     (by decide),
   by decide,
   (get_registers_normalized_name envNone (emptyReg Nat) "na" [] 0 5 (by decide)).2
     (by decide)⟩

theorem get_events_miss {α : Type} (env : ParseEnv) (st : RegState α)
    (name : String) (labels : List (String × String)) (args : α)
    (h : alookup (hash_name_and_labels name labels) st.metrics_ = none) :
    (Get env st name labels args).2.events
      = (getFamily env st name).2.events
        ++ [Event.add (getFamily env st name).1
              (parse_labels env.parseMetricLabelName labels) args
              (getFamily env st name).2.nextId] := by
  unfold Get
  simp only [getFamily_metrics, h]

/-- Claim C6: in the normalized label mapping built by parse_labels and
passed to Family::Add on an instance-cache miss, every entry arises from
an input pair whose label name was normalized (canonical enumerated form
when recognized, raw string when not) and whose value is passed through
verbatim; the canonical form of every recognized input label name and
the raw form of every unrecognized one occur among the keys; and label
values are never substituted. -/
theorem parse_labels_normalization {α : Type} (pl : String → Option Nat)
    (l : List (String × String)) :
    (∀ p ∈ parse_labels pl l, ∃ k, (k, p.2) ∈ l ∧ p.1 = normLabel pl k)
    ∧ (∀ p ∈ l, ∀ c : Nat, pl p.1 = some c → toString c ∈ keysOf (parse_labels pl l))
    ∧ (∀ p ∈ l, pl p.1 = none → p.1 ∈ keysOf (parse_labels pl l))
    ∧ ∀ (env : ParseEnv) (st : RegState α) (name : String) (args : α),
        env.parseMetricLabelName = pl →
        alookup (hash_name_and_labels name l) st.metrics_ = none →
        (Get env st name l args).2.events
          = (getFamily env st name).2.events
            ++ [Event.add (getFamily env st name).1 (parse_labels pl l) args
                  (getFamily env st name).2.nextId] := by
  refine ⟨?_, ?_, ?_, ?_⟩
  · intro p hp
    rw [parse_labels_eq_foldIns] at hp
    rcases mem_foldIns (normLabel pl) l [] hp with h | ⟨r, hr, hq⟩
    · simp at h
    · exact ⟨r.1, by rw [hq]; exact hr, by rw [hq]⟩
  · intro p hp c hc
    rw [parse_labels_eq_foldIns, mem_keys_foldIns]
    right
    exact ⟨p, hp, by simp [normLabel, hc]⟩
  · intro p hp hc
    rw [parse_labels_eq_foldIns, mem_keys_foldIns]
    right
    exact ⟨p, hp, by simp [normLabel, hc]⟩
  · intro env st name args hpl hmiss
    rw [get_events_miss env st name l args hmiss, hpl]

/-- A label resolver recognizing only the label name "http_method",
as constant 7; metric resolver recognizing "requests_total" as 3. -/
def plHttp : String → Option Nat := fun s => if s = "http_method" then some 7 else none

/-- Parse environment pairing the metric resolver ("requests_total" is
constant 3) with the plHttp label resolver. -/
def envHttp : ParseEnv :=
  ⟨fun s => if s = "requests_total" then some 3 else none, plHttp⟩

/-- Witness for C6: the recognized label name "http_method" appears in
canonical form "7" among the normalized keys, and a concrete
instance-cache miss passes exactly parse_labels' output to Family::Add. -/
theorem parse_labels_normalization_witness :
    toString 7 ∈ keysOf (parse_labels plHttp [("http_method", "GET")])
    ∧ (Get envHttp (emptyReg Nat) "requests_total" [("http_method", "GET")] 0).2.events
      = (getFamily envHttp (emptyReg Nat) "requests_total").2.events
        ++ [Event.add (getFamily envHttp (emptyReg Nat) "requests_total").1
              (parse_labels plHttp [("http_method", "GET")]) 0
              (getFamily envHttp (emptyReg Nat) "requests_total").2.nextId] :=
  ⟨(parse_labels_normalization (α := Nat) plHttp [("http_method", "GET")]).2.1
     ("http_method", "GET") (by decide) 7 (by decide),
   (parse_labels_normalization (α := Nat) plHttp [("http_method", "GET")]).2.2.2
     envHttp (emptyReg Nat) "requests_total" 0 rfl (by decide)⟩

theorem keysOf_nodup_of_sorted {β : Type} {m : List (String × β)}
    (h : SortedKeys m) : (keysOf m).Nodup := by
  have hp : List.Pairwise (fun a b : String => a < b) (keysOf m) :=
    (List.pairwise_map).mpr h
  exact hp.imp ne_of_lt

theorem find?_min_key {β : Type} (pr : String × β → Bool) :
    ∀ (m : List (String × β)), SortedKeys m → ∀ {q : String × β}, q ∈ m →
      pr q = true → (∀ p ∈ m, pr p = true → q.1 ≤ p.1) → m.find? pr = some q := by
  intro m
  induction m with
  | nil =>
    intro _ q hq
    simp at hq
  | cons p m ih =>
    intro hm q hq hpr hmin
    obtain ⟨hall, hm1⟩ := sortedKeys_cons.mp hm
    rcases List.mem_cons.mp hq with rfl | hq1
    · exact List.find?_cons_of_pos m hpr
    · by_cases hp : pr p = true
      · have h1 := hmin p (List.mem_cons_self _ _) hp
        have h2 := hall q hq1
        exact absurd (lt_of_le_of_lt h1 h2) (lt_irrefl _)
      · rw [List.find?_cons_of_neg m hp]
        exact ih hm1 hq1 hpr (fun r hr hprr => hmin r (List.mem_cons_of_mem _ hr) hprr)

theorem alookup_parse_labels (pl : String → Option Nat) (c : String)
    (l : List (String × String)) :
    alookup c (parse_labels pl l)
      = Option.map Prod.snd (l.find? (fun p => normLabel pl p.1 == c)) := by
  rw [parse_labels_eq_foldIns]
  exact alookup_foldIns_none (normLabel pl) l [] List.Pairwise.nil rfl

theorem mem_keys_parse_labels (pl : String → Option Nat) (c : String)
    (l : List (String × String)) :
    c ∈ keysOf (parse_labels pl l) ↔ ∃ p ∈ l, normLabel pl p.1 = c := by
  rw [parse_labels_eq_foldIns, mem_keys_foldIns]
  simp [keysOf]

theorem parse_labels_length_lt (pl : String → Option Nat)
    {m : List (String × String)} (hm : SortedKeys m) {k1 k2 : String}
    (hk1 : k1 ∈ keysOf m) (hk2 : k2 ∈ keysOf m) (hne : k1 ≠ k2)
    (hcol : normLabel pl k1 = normLabel pl k2) :
    (parse_labels pl m).length < m.length := by
  have hnod_in : (keysOf m).Nodup := keysOf_nodup_of_sorted hm
  have hnod_out : (keysOf (parse_labels pl m)).Nodup :=
    keysOf_nodup_of_sorted (sortedKeys_parse_labels pl m)
  have hlen_in : m.length = (keysOf m).toFinset.card := by
    rw [List.toFinset_card_of_nodup hnod_in]
    simp [keysOf]
  have hlen_out : (parse_labels pl m).length
      = (keysOf (parse_labels pl m)).toFinset.card := by
    rw [List.toFinset_card_of_nodup hnod_out]
    simp [keysOf]
  have hmem : ∀ c, c ∈ keysOf (parse_labels pl m) ↔
      ∃ k ∈ keysOf m, normLabel pl k = c := by
    intro c
    rw [mem_keys_parse_labels]
    constructor
    · rintro ⟨p, hp, hc⟩
      exact ⟨p.1, List.mem_map_of_mem _ hp, hc⟩
    · rintro ⟨k, hk, hc⟩
      simp only [keysOf, List.mem_map] at hk
      obtain ⟨p, hp, rfl⟩ := hk
      exact ⟨p, hp, hc⟩
  have himg : (keysOf (parse_labels pl m)).toFinset
      = (keysOf m).toFinset.image (normLabel pl) := by
    ext c
    simp only [List.mem_toFinset, Finset.mem_image, hmem c]
  rw [hlen_in, hlen_out, himg]
  have hk1s : k1 ∈ (keysOf m).toFinset := List.mem_toFinset.mpr hk1
  have hk2s : k2 ∈ (keysOf m).toFinset := List.mem_toFinset.mpr hk2
  have heq : (keysOf m).toFinset.image (normLabel pl)
      = ((keysOf m).toFinset.erase k2).image (normLabel pl) := by
    ext x
    simp only [Finset.mem_image, Finset.mem_erase]
    constructor
    · rintro ⟨a, ha, rfl⟩
      by_cases hak : a = k2
      · exact ⟨k1, ⟨hne, hk1s⟩, by rw [hak]; exact hcol⟩
      · exact ⟨a, ⟨hak, ha⟩, rfl⟩
    · rintro ⟨a, ⟨_, ha⟩, rfl⟩
      exact ⟨a, ha, rfl⟩
  rw [heq]
  calc (((keysOf m).toFinset.erase k2).image (normLabel pl)).card
      ≤ ((keysOf m).toFinset.erase k2).card := Finset.card_image_le
    _ < (keysOf m).toFinset.card := by
        rw [Finset.card_erase_of_mem hk2s]
        have hpos : 0 < (keysOf m).toFinset.card := Finset.card_pos.mpr ⟨k2, hk2s⟩
        omega

/-- Claim C9: when an input label mapping contains two distinct raw
label names that both parse to the same enumerated constant, the
normalized mapping built by parse_labels contains the canonical name
exactly once, keeps the value belonging to the smallest raw label name
(k1, the one no other colliding raw name precedes), silently drops the
other pair, and therefore has strictly fewer entries than the input. -/
theorem parse_labels_collision (pl : String → Option Nat)
    (l : List (String × String)) (k1 k2 v1 : String) (c : Nat)
    (hnd : (l.map Prod.fst).Nodup)
    (h1 : (k1, v1) ∈ l) (hk2 : k2 ∈ l.map Prod.fst) (hne : k1 ≠ k2)
    (hc1 : pl k1 = some c) (hc2 : pl k2 = some c)
    (hmin : ∀ p ∈ l, normLabel pl p.1 = toString c → ¬ p.1 < k1) :
    alookup (toString c) (parse_labels pl (mapOfList l)) = some v1
    ∧ (keysOf (parse_labels pl (mapOfList l))).count (toString c) = 1
    ∧ (parse_labels pl (mapOfList l)).length < (mapOfList l).length := by
  have hperm := mapOfList_perm hnd
  have hsorted := sortedKeys_mapOfList l
  have h1m : (k1, v1) ∈ mapOfList l := hperm.mem_iff.mpr h1
  have hnorm1 : normLabel pl k1 = toString c := by simp [normLabel, hc1]
  have hnorm2 : normLabel pl k2 = toString c := by simp [normLabel, hc2]
  have hkeysperm : List.Perm (keysOf (mapOfList l)) (l.map Prod.fst) := by
    simpa [keysOf] using hperm.map Prod.fst
  refine ⟨?_, ?_, ?_⟩
  · rw [alookup_parse_labels]
    have hfind := find?_min_key (fun p => normLabel pl p.1 == toString c)
      (mapOfList l) hsorted h1m (by simp [hnorm1])
      (fun p hp hpr => le_of_not_lt
        (hmin p (hperm.mem_iff.mp hp) (by simpa using hpr)))
    rw [hfind]
    rfl
  · have hmem : toString c ∈ keysOf (parse_labels pl (mapOfList l)) :=
      (mem_keys_parse_labels pl (toString c) (mapOfList l)).mpr ⟨(k1, v1), h1m, hnorm1⟩
    have hnod : (keysOf (parse_labels pl (mapOfList l))).Nodup :=
      keysOf_nodup_of_sorted (sortedKeys_parse_labels pl (mapOfList l))
    exact Nat.le_antisymm (List.nodup_iff_count_le_one.mp hnod _)
      (List.count_pos_iff.mpr hmem)
  · refine parse_labels_length_lt pl hsorted ?_ ?_ hne (hnorm1.trans hnorm2.symm)
    · exact hkeysperm.mem_iff.mpr (List.mem_map_of_mem _ h1)
    · exact hkeysperm.mem_iff.mpr hk2

/-- A label resolver in which the raw label names "a" and "b" both parse
to the enumerated constant 7. -/
def plAlias : String → Option Nat :=
  fun s => if s = "a" then some 7 else if s = "b" then some 7 else none

/-- Witness for C9: the mapping {"a" ↦ "x", "b" ↦ "y"} under plAlias
normalizes to a single entry ("7", "x"): the value of the smaller raw
name "a" is kept. -/
theorem parse_labels_collision_witness :
    ([("a", "x"), ("b", "y")].map Prod.fst).Nodup
    ∧ plAlias "a" = some 7
    ∧ plAlias "b" = some 7
    ∧ alookup (toString 7) (parse_labels plAlias (mapOfList [("a", "x"), ("b", "y")]))
        = some "x"
    ∧ (keysOf (parse_labels plAlias (mapOfList [("a", "x"), ("b", "y")]))).count
        (toString 7) = 1
    ∧ (parse_labels plAlias (mapOfList [("a", "x"), ("b", "y")])).length
        < (mapOfList [("a", "x"), ("b", "y")]).length := by
  have hmin : ∀ p ∈ [("a", "x"), ("b", "y")],
      normLabel plAlias p.1 = toString 7 → ¬ p.1 < "a" := by
    intro p hp _
    rw [String.lt_iff_toList_lt]
    rcases List.mem_cons.mp hp with rfl | hp
    · decide
    · rcases List.mem_cons.mp hp with rfl | hp
      · decide
      · simp at hp
  have hmain := parse_labels_collision plAlias [("a", "x"), ("b", "y")] "a" "b" "x" 7
    (by decide) (by decide) (by decide) (by decide) (by decide) (by decide) hmin
  exact ⟨by decide, by decide, by decide, hmain.1, hmain.2.1, hmain.2.2⟩

/-- A single Get invocation: the metric name, the caller's label map,
and the forwarded construction arguments. -/
structure Call (α : Type) where
  name : String
  labels : List (String × String)
  args : α

/-- Run a sequence of Get calls against the registry, keeping only the
evolving state. -/
def runCalls {α : Type} (env : ParseEnv) (st : RegState α) : List (Call α) → RegState α
  | [] => st
  | c :: cs => runCalls env (Get env st c.name c.labels c.args).2 cs

theorem families_toFinset_get {α : Type} (env : ParseEnv) (st : RegState α)
    (name : String) (labels : List (String × String)) (args : α) :
    (keysOf (Get env st name labels args).2.families_).toFinset
      = insert name (keysOf st.families_).toFinset
    ∧ ((keysOf st.families_).Nodup →
        (keysOf (Get env st name labels args).2.families_).Nodup) := by
  cases hf : alookup name st.families_ with
  | some f =>
    have heq : (Get env st name labels args).2.families_ = st.families_ := by
      rw [get_families]
      unfold getFamily
      simp [hf]
    have hmem : name ∈ keysOf st.families_ := by
      by_contra hnm
      rw [← alookup_eq_none] at hnm
      rw [hf] at hnm
      exact Option.noConfusion hnm
    rw [heq]
    exact ⟨(Finset.insert_eq_self.mpr (List.mem_toFinset.mpr hmem)).symm, id⟩
  | none =>
    rw [get_families_miss env st name labels args hf]
    refine ⟨by simp [keysOf], ?_⟩
    intro h
    simp only [keysOf, List.map_cons, List.nodup_cons]
    exact ⟨(alookup_eq_none name _).mp hf, h⟩

theorem metrics_toFinset_get {α : Type} (env : ParseEnv) (st : RegState α)
    (name : String) (labels : List (String × String)) (args : α) :
    (keysOf (Get env st name labels args).2.metrics_).toFinset
      = insert (hash_name_and_labels name labels) (keysOf st.metrics_).toFinset
    ∧ ((keysOf st.metrics_).Nodup →
        (keysOf (Get env st name labels args).2.metrics_).Nodup) := by
  cases hm : alookup (hash_name_and_labels name labels) st.metrics_ with
  | some m =>
    have heq := get_metrics_hit env st name labels args hm
    have hmem : hash_name_and_labels name labels ∈ keysOf st.metrics_ := by
      by_contra hnm
      rw [← alookup_eq_none] at hnm
      rw [hm] at hnm
      exact Option.noConfusion hnm
    rw [heq]
    exact ⟨(Finset.insert_eq_self.mpr (List.mem_toFinset.mpr hmem)).symm, id⟩
  | none =>
    rw [get_metrics_miss env st name labels args hm]
    refine ⟨by simp [keysOf], ?_⟩
    intro h
    simp only [keysOf, List.map_cons, List.nodup_cons]
    exact ⟨(alookup_eq_none _ _).mp hm, h⟩

theorem runCalls_caches {α : Type} (env : ParseEnv) :
    ∀ (cs : List (Call α)) (st : RegState α),
      (keysOf st.families_).Nodup → (keysOf st.metrics_).Nodup →
      (keysOf (runCalls env st cs).families_).toFinset
          = (keysOf st.families_).toFinset ∪ (cs.map (fun c => c.name)).toFinset
      ∧ (keysOf (runCalls env st cs).metrics_).toFinset
          = (keysOf st.metrics_).toFinset
            ∪ (cs.map (fun c => hash_name_and_labels c.name c.labels)).toFinset
      ∧ (keysOf (runCalls env st cs).families_).Nodup
      ∧ (keysOf (runCalls env st cs).metrics_).Nodup := by
  intro cs
  induction cs with
  | nil =>
    intro st h1 h2
    exact ⟨by simp [runCalls], by simp [runCalls], h1, h2⟩
  | cons c cs ih =>
    intro st h1 h2
    have hfam := families_toFinset_get env st c.name c.labels c.args
    have hmet := metrics_toFinset_get env st c.name c.labels c.args
    have hrec := ih (Get env st c.name c.labels c.args).2 (hfam.2 h1) (hmet.2 h2)
    refine ⟨?_, ?_, hrec.2.2.1, hrec.2.2.2⟩
    · show (keysOf (runCalls env (Get env st c.name c.labels c.args).2 cs).families_).toFinset = _
      rw [hrec.1, hfam.1]
      simp [Finset.insert_union, Finset.union_insert]
    · show (keysOf (runCalls env (Get env st c.name c.labels c.args).2 cs).metrics_).toFinset = _
      rw [hrec.2.1, hmet.1]
      simp [Finset.insert_union, Finset.union_insert]

/-- Claim C7: after any sequence of Get calls from a fresh registry,
SizeFamilies and SizeMetrics equal the number of distinct family keys
(raw names) and distinct instance keys ever created, independent of
lookup repetition, and a further Get never decreases either value. -/
theorem sizes_count_distinct_keys {α : Type} (env : ParseEnv) (cs : List (Call α))
    (st : RegState α) (name : String) (labels : List (String × String)) (args : α) :
    SizeFamilies (runCalls env (emptyReg α) cs)
      = (cs.map (fun c => c.name)).toFinset.card
    ∧ SizeMetrics (runCalls env (emptyReg α) cs)
      = (cs.map (fun c => hash_name_and_labels c.name c.labels)).toFinset.card
    ∧ SizeFamilies st ≤ SizeFamilies (Get env st name labels args).2
    ∧ SizeMetrics st ≤ SizeMetrics (Get env st name labels args).2 := by
  have hrun := runCalls_caches env cs (emptyReg α) (by simp [emptyReg, keysOf])
    (by simp [emptyReg, keysOf])
  refine ⟨?_, ?_, ?_, ?_⟩
  · have hlen : SizeFamilies (runCalls env (emptyReg α) cs)
        = (keysOf (runCalls env (emptyReg α) cs).families_).length := by
      simp [SizeFamilies, keysOf]
    rw [hlen, ← List.toFinset_card_of_nodup hrun.2.2.1, hrun.1]
    simp [emptyReg, keysOf]
  · have hlen : SizeMetrics (runCalls env (emptyReg α) cs)
        = (keysOf (runCalls env (emptyReg α) cs).metrics_).length := by
      simp [SizeMetrics, keysOf]
    rw [hlen, ← List.toFinset_card_of_nodup hrun.2.2.2, hrun.2.1]
    simp [emptyReg, keysOf]
  · cases hf : alookup name st.families_ with
    | some f =>
      have heq : (Get env st name labels args).2.families_ = st.families_ := by
        rw [get_families]
        unfold getFamily
        simp [hf]
      simp only [SizeFamilies]
      rw [heq]
    | none =>
      simp only [SizeFamilies]
      rw [get_families_miss env st name labels args hf]
      simp
  · cases hm : alookup (hash_name_and_labels name labels) st.metrics_ with
    | some m =>
      simp only [SizeMetrics]
      rw [get_metrics_hit env st name labels args hm]
    | none =>
      simp only [SizeMetrics]
      rw [get_metrics_miss env st name labels args hm]
      simp

/-- Family resolution of Get with fallible backend registration: in the
source the factory/Register call sits before families_.insert, so a
collaborator exception (modelled by failReg returning true for the
normalized name) propagates and the insert is skipped; the error value
carries the registry state left behind at the throw point. -/
def getFamilyE {α : Type} (env : ParseEnv) (failReg : String → Bool)
    (st : RegState α) (name : String) : Except (RegState α) (Nat × RegState α) :=
  match alookup name st.families_ with
  | some f => Except.ok (f, st)
  | none =>
    if failReg (protoNameOf env name) then Except.error st
    else Except.ok (st.nextId,
      { st with
        families_ := (name, st.nextId) :: st.families_
        events := st.events ++ [Event.register (protoNameOf env name) st.nextId]
        nextId := st.nextId + 1 })

/-- MetricsRegistry::Get with fallible collaborators: failReg models the
factory/Register call throwing, failAdd models Family::Add throwing on
the converted label mapping.  Exactly as in the source, each cache
insert follows the corresponding construction call, so a throw skips it
and propagates to the caller. -/
def GetE {α : Type} (env : ParseEnv) (failReg : String → Bool)
    (failAdd : List (String × String) → Bool) (st : RegState α) (name : String)
    (labels : List (String × String)) (args : α) :
    Except (RegState α) (Nat × RegState α) :=
  match getFamilyE env failReg st name with
  | Except.error st1 => Except.error st1
  | Except.ok (f, st1) =>
    match alookup (hash_name_and_labels name labels) st1.metrics_ with
    | some m => Except.ok (m, st1)
    | none =>
      let converted := parse_labels env.parseMetricLabelName labels
      if failAdd converted then Except.error st1
      else Except.ok (st1.nextId,
        { st1 with
          metrics_ := (hash_name_and_labels name labels, st1.nextId) :: st1.metrics_
          events := st1.events ++ [Event.add f converted args st1.nextId]
          nextId := st1.nextId + 1 })

/-- Claim C8: a collaborator failure during Get propagates unchanged to
the caller and leaves no partial entry: on success GetE computes exactly
Get; on failure the instance cache is untouched and the family cache is
either untouched (registration threw) or extended by the one fully
registered family (Family::Add threw after a successful registration);
and an error occurs precisely when a construction step on the executed
path fails. -/
theorem getE_atomic {α : Type} (env : ParseEnv) (failReg : String → Bool)
    (failAdd : List (String × String) → Bool) (st : RegState α) (name : String)
    (labels : List (String × String)) (args : α) :
    (∀ m st1, GetE env failReg failAdd st name labels args = Except.ok (m, st1) →
       (m, st1) = Get env st name labels args)
    ∧ (∀ st1, GetE env failReg failAdd st name labels args = Except.error st1 →
        st1.metrics_ = st.metrics_
        ∧ (st1.families_ = st.families_
           ∨ (alookup name st.families_ = none
              ∧ failReg (protoNameOf env name) = false
              ∧ st1.families_ = (name, st.nextId) :: st.families_
              ∧ st1.events = st.events
                  ++ [Event.register (protoNameOf env name) st.nextId])))
    ∧ ((∃ st1, GetE env failReg failAdd st name labels args = Except.error st1) ↔
        (alookup name st.families_ = none
           ∧ failReg (protoNameOf env name) = true)
        ∨ (¬(alookup name st.families_ = none
             ∧ failReg (protoNameOf env name) = true)
           ∧ alookup (hash_name_and_labels name labels) st.metrics_ = none
           ∧ failAdd (parse_labels env.parseMetricLabelName labels) = true)) := by
  unfold GetE getFamilyE
  cases hf : alookup name st.families_ with
  | some f =>
    cases hm : alookup (hash_name_and_labels name labels) st.metrics_ with
    | some m =>
      simp only [hf, hm]
      refine ⟨?_, ?_, ?_⟩
      · intro m' st1 h
        simp only [Except.ok.injEq, Prod.mk.injEq] at h
        obtain ⟨h1, h2⟩ := h
        rw [← h1, ← h2]
        exact (get_hit env st name labels args hf hm).symm
      · intro st1 h
        exact absurd h (by simp)
      · simp [hf, hm]
    | none =>
      cases hfa : failAdd (parse_labels env.parseMetricLabelName labels) with
      | false =>
        simp only [hf, hm, hfa, if_neg Bool.false_ne_true]
        refine ⟨?_, ?_, ?_⟩
        · intro m' st1 h
          simp only [Except.ok.injEq] at h
          rw [← h]
          unfold Get getFamily
          simp [hf, hm]
        · intro st1 h
          exact absurd h (by simp)
        · simp [hf, hm, hfa]
      | true =>
        simp only [hf, hm, hfa, if_pos rfl]
        refine ⟨?_, ?_, ?_⟩
        · intro m' st1 h
          exact absurd h (by simp)
        · intro st1 h
          have h1 : st = st1 := by simpa using h
          rw [← h1]
          exact ⟨rfl, Or.inl rfl⟩
        · simp [hf, hm, hfa]
  | none =>
    cases hfr : failReg (protoNameOf env name) with
    | true =>
      simp only [hf, hfr, if_pos rfl]
      refine ⟨?_, ?_, ?_⟩
      · intro m' st1 h
        exact absurd h (by simp)
      · intro st1 h
        have h1 : st = st1 := by simpa using h
        rw [← h1]
        exact ⟨rfl, Or.inl rfl⟩
      · simp [hf, hfr]
    | false =>
      cases hm : alookup (hash_name_and_labels name labels) st.metrics_ with
      | some m =>
        simp only [hf, hfr, if_neg Bool.false_ne_true, hm]
        refine ⟨?_, ?_, ?_⟩
        · intro m' st1 h
          simp only [Except.ok.injEq, Prod.mk.injEq] at h
          obtain ⟨h1, h2⟩ := h
          rw [← h1, ← h2]
          unfold Get getFamily
          simp [hf, hm]
        · intro st1 h
          exact absurd h (by simp)
        · simp [hf, hfr, hm]
      | none =>
        cases hfa : failAdd (parse_labels env.parseMetricLabelName labels) with
        | false =>
          simp only [hf, hfr, if_neg Bool.false_ne_true, hm, hfa]
          refine ⟨?_, ?_, ?_⟩
          · intro m' st1 h
            simp only [Except.ok.injEq] at h
            rw [← h]
            unfold Get getFamily
            simp [hf, hm]
          · intro st1 h
            exact absurd h (by simp)
          · simp [hf, hfr, hm, hfa]
        | true =>
          simp only [hf, hfr, if_neg Bool.false_ne_true, hm, hfa, if_pos rfl]
          refine ⟨?_, ?_, ?_⟩
          · intro m' st1 h
            exact absurd h (by simp)
          · intro st1 h
            rw [if_pos trivial] at h
            simp only [Except.error.injEq] at h
            rw [← h]
            simp
          · simp [hf, hfr, hm, hfa]

/-- Witness for C8: with a backend whose registration always throws, a
first Get for "n" propagates the error and leaves the registry exactly
as it was (the empty registry). -/
theorem getE_atomic_witness :
    GetE envNone (fun _ => true) (fun _ => false) (emptyReg Nat) "n" [] 0
      = Except.error (emptyReg Nat)
    ∧ ((emptyReg Nat).metrics_ = (emptyReg Nat).metrics_
       ∧ ((emptyReg Nat).families_ = (emptyReg Nat).families_
          ∨ (alookup "n" (emptyReg Nat).families_ = none
             ∧ (fun _ : String => true) (protoNameOf envNone "n") = false
             ∧ (emptyReg Nat).families_
                 = ("n", (emptyReg Nat).nextId) :: (emptyReg Nat).families_
             ∧ (emptyReg Nat).events = (emptyReg Nat).events
                 ++ [Event.register (protoNameOf envNone "n")
                       (emptyReg Nat).nextId]))) :=
  ⟨rfl,
   (getE_atomic envNone (fun _ => true) (fun _ => false) (emptyReg Nat) "n" [] 0).2.1
     (emptyReg Nat) rfl⟩

end Service303

namespace Lfds611

/-- sizeof(void *) on the modelled (64-bit) platform. -/
def ptrSize : Nat := 8

/-- Outcome of a successful lfds611_liblfds_aligned_malloc: the pointer
handed to the caller, the address of the pointer-sized slot immediately
before it, and the value stored there (the original allocation). -/
structure AlignedResult where
  ptr : Nat
  storedAt : Nat
  storedVal : Nat
  deriving DecidableEq, Repr

/-- lfds611_liblfds_aligned_malloc (source lines 37-58).  mallocResult
is the address lfds611_abstraction_malloc returned for the request of
size + sizeof(void *) + align_in_bytes bytes, or none when that
allocation failed.  Addresses are byte addresses modelled as naturals:
memory = (void **)memory + 1 advances by ptrSize, offset =
align_in_bytes - (size_t)memory % align_in_bytes, memory += offset, and
*((void **)memory - 1) = original_memory is recorded as the stored
slot. -/
def lfds611_liblfds_aligned_malloc (mallocResult : Option Nat)
    (size align_in_bytes : Nat) : Option AlignedResult :=
  match mallocResult with
  | none => none
  | some original_memory =>
    let memory1 := original_memory + ptrSize
    let offset := align_in_bytes - memory1 % align_in_bytes
    let memory2 := memory1 + offset
    some { ptr := memory2, storedAt := memory2 - ptrSize, storedVal := original_memory }

/-- Claim C10: for every size and positive alignment, a successful
underlying allocation at address orig yields a pointer aligned to the
requested alignment, located at least one pointer width past orig and
fitting with size bytes inside the size + sizeof(void *) + alignment
byte allocation, with the original allocation address stored in the
pointer-sized slot immediately before the returned pointer; a failed
underlying allocation yields NULL. -/
theorem aligned_malloc_correct (size align orig : Nat) (ha : 0 < align) :
    ∃ r, lfds611_liblfds_aligned_malloc (some orig) size align = some r
      ∧ r.ptr % align = 0
      ∧ orig + ptrSize ≤ r.ptr
      ∧ r.ptr + size ≤ orig + (size + ptrSize + align)
      ∧ r.storedAt + ptrSize = r.ptr
      ∧ orig ≤ r.storedAt
      ∧ r.storedVal = orig
      ∧ lfds611_liblfds_aligned_malloc none size align = none := by
  have hps : ptrSize = 8 := rfl
  have h1 : (orig + ptrSize) % align < align := Nat.mod_lt _ ha
  have h2 : align * ((orig + ptrSize) / align) + (orig + ptrSize) % align
      = orig + ptrSize := Nat.div_add_mod _ _
  have hkey : orig + ptrSize + (align - (orig + ptrSize) % align)
      = align * ((orig + ptrSize) / align) + align := by omega
  refine ⟨⟨orig + ptrSize + (align - (orig + ptrSize) % align),
           orig + ptrSize + (align - (orig + ptrSize) % align) - ptrSize,
           orig⟩, rfl, ?_, ?_, ?_, ?_, ?_, rfl, rfl⟩
  · show (orig + ptrSize + (align - (orig + ptrSize) % align)) % align = 0
    rw [hkey, ← Nat.mul_succ, Nat.mul_mod_right]
  · show orig + ptrSize ≤ orig + ptrSize + (align - (orig + ptrSize) % align)
    omega
  · show orig + ptrSize + (align - (orig + ptrSize) % align) + size
      ≤ orig + (size + ptrSize + align)
    omega
  · show orig + ptrSize + (align - (orig + ptrSize) % align) - ptrSize + ptrSize
      = orig + ptrSize + (align - (orig + ptrSize) % align)
    omega
  · show orig ≤ orig + ptrSize + (align - (orig + ptrSize) % align) - ptrSize
    omega

/-- Witness for C10 at size 100, alignment 16, allocation address 1000:
the returned pointer is 1024 (the code over-shifts a whole alignment
when (void**)memory + 1 is already aligned), the slot at 1016 holds
1000. -/
theorem aligned_malloc_correct_witness :
    0 < 16
    ∧ (∃ r, lfds611_liblfds_aligned_malloc (some 1000) 100 16 = some r
        ∧ r.ptr % 16 = 0
        ∧ 1000 + ptrSize ≤ r.ptr
        ∧ r.ptr + 100 ≤ 1000 + (100 + ptrSize + 16)
        ∧ r.storedAt + ptrSize = r.ptr
        ∧ 1000 ≤ r.storedAt
        ∧ r.storedVal = 1000
        ∧ lfds611_liblfds_aligned_malloc none 100 16 = none)
    ∧ lfds611_liblfds_aligned_malloc (some 1000) 100 16
        = some ⟨1024, 1016, 1000⟩ :=
  ⟨by decide, aligned_malloc_correct 100 16 1000 (by decide), by decide⟩

end Lfds611
